import Mathlib

/-!
Verification of the NNMF pipeline (`NNMF.py`).

The script computes a non-negative matrix factorization of a stack of
mass-spectrometry intensity images and per-bin noise statistics.  Intensities
are modelled as rationals (the script works with machine floats; every claim
checked here concerns order and sign structure, which is exact in `ℚ`).
A flattened image is a `List ℚ`; a matrix is a total function `ℕ → ℕ → ℚ`
together with explicit bounds carried by the statements.
-/

namespace NNMF

/-- A matrix, indexed (row, column); dimensions are carried separately. -/
abbrev Mat := ℕ → ℕ → ℚ

/-- Negative-intensity clamp, `img[img < 0] = 0` (lines 43 and 133). -/
def clampNeg (img : List ℚ) : List ℚ :=
  img.map (fun v => if v < 0 then 0 else v)

/-- The intensities in ascending order (numpy sorts before interpolating a
percentile). -/
def sortedOf (img : List ℚ) : List ℚ := img.insertionSort (· ≤ ·)

/-- Integer part of numpy's virtual 99th-percentile index `h = 99·(n−1)/100`
(computed with natural division; exact for every nonempty image). -/
def pIdx (img : List ℚ) : ℕ := 99 * (img.length - 1) / 100

/-- Fractional part of the virtual 99th-percentile index. -/
def pFrac (img : List ℚ) : ℚ := ((99 * (img.length - 1)) % 100 : ℕ) / 100

/-- The 99th percentile, `np.percentile(img, 99)` (line 44) with numpy's
default linear interpolation: `a + fract(h)·(b − a)`, where `a` and `b` are
the sorted values at positions `⌊h⌋` and `⌊h⌋ + 1` and `h = 99·(n−1)/100` is
the virtual index (numpy raises on an empty image; the definition is only
ever applied to nonempty ones). -/
def percentile99 (img : List ℚ) : ℚ :=
  (sortedOf img).getD (pIdx img) 0 +
    pFrac img *
      ((sortedOf img).getD (pIdx img + 1) ((sortedOf img).getD (pIdx img) 0) -
        (sortedOf img).getD (pIdx img) 0)

/-- Cleaning applied by `get_mz_images` (lines 43–45): clamp negatives to 0,
then clamp everything above the 99th percentile of the clamped image down to
that percentile. -/
def cleanImage (img : List ℚ) : List ℚ :=
  (clampNeg img).map
    (fun v => if percentile99 (clampNeg img) < v then percentile99 (clampNeg img) else v)

/-- The "original image" used by the noise-statistics loop (lines 132–133):
only the negative clamp is applied there. -/
def noisePassImage (img : List ℚ) : List ℚ :=
  clampNeg img

/-- Pixel access into the noise-pass image of bin `b` (0 outside the image). -/
def noisePassAt (raw : ℕ → List ℚ) (b : ℕ) : ℕ → ℚ :=
  fun p => (noisePassImage (raw b)).getD p 0

/-- The pixels × bins matrix of cleaned images (`arr` reshaped and
transposed, lines 59 and 89/121: each column is one bin's flattened cleaned
image). -/
def imageMatrix (raw : ℕ → List ℚ) : Mat :=
  fun p j => (cleanImage (raw j)).getD p 0

/-- Column selection `x[:, cols]` (lines 108, 115): column `c` of the result
is column `cols[c]` of `x`. -/
def Wof (x : Mat) (cols : List ℕ) : Mat :=
  fun p c => x p (cols.getD c 0)

/-- Fuel-driven `toolz.partition_all`: split a list into consecutive chunks
of size `k` (the last chunk may be shorter).  `fuel ≥ l.length` suffices. -/
def partitionAllAux (k : ℕ) : ℕ → List ℕ → List (List ℕ)
  | 0, _ => []
  | _, [] => []
  | fuel + 1, x :: xs => ((x :: xs).take k) :: partitionAllAux k fuel ((x :: xs).drop k)

/-- `partition_all k l` (lines 51, 82). -/
def partitionAll (k : ℕ) (l : List ℕ) : List (List ℕ) :=
  partitionAllAux k l.length l

/-- Modelled from the spec: the type of the NNLS solver underlying
`nnlsm_blockpivot` (`external/nnls.py`, not under `src/`).  Per §4.4 the
solver treats each right-hand-side column independently, so it is modelled by
its action on a single target column: `S m A k b ki` is entry `ki` of the
non-negative coefficient vector for anchors `A` (an `m × k` matrix) and
target column `b` (length `m`). -/
abbrev NNLSSolver := ℕ → Mat → ℕ → (ℕ → ℚ) → ℕ → ℚ

/-- `nnls_frob` (lines 75–86): the result is zero-initialized with shape
`(k, ncols)`, and the target columns are processed in batches of 100; each
batch writes the solver's solutions into the corresponding slice.  The
per-batch call `nnlsm_blockpivot(x_sel, x[:, chunk])` is modelled through the
per-column solver `S` applied to each column of the chunk. -/
def nnls_frob (S : NNLSSolver) (m : ℕ) (anchors : Mat) (k ncols : ℕ) (x : Mat) : Mat :=
  (partitionAll 100 (List.range ncols)).foldl
    (fun acc ch => fun ki j => if j ∈ ch then S m anchors k (fun i => x i j) ki else acc ki j)
    (fun _ _ => 0)

/-- Modelled from the spec: solving all target columns of `x` in a single
call (§4.4 "numerically identical ... to solving all columns at once"); each
column's solution depends only on the anchors and that column. -/
def nnlsSingleCall (S : NNLSSolver) (m : ℕ) (anchors : Mat) (k : ℕ) (x : Mat) : Mat :=
  fun ki j => S m anchors k (fun i => x i j) ki

/-- The score vector of the XRay loop (lines 98–100):
`scores = (R * x).sum(axis=0) / p.T.dot(x)`.  Division by a zero projection
is `0` in `ℚ` (numpy emits `inf`/`nan` there; no claim depends on the
difference, since the only facts used are sign facts that hold in both
conventions). -/
def scoreOf (m : ℕ) (R x : Mat) (p : ℕ → ℚ) (j : ℕ) : ℚ :=
  (∑ i in Finset.range m, R i j * x i j) / (∑ i in Finset.range m, p i * x i j)

/-- Exclusion of already-selected columns, `scores[cols] = -1` (line 102).
Note the source writes `-1`, a finite value, not `-∞`. -/
def maskScores (cols : List ℕ) (s : ℕ → ℚ) : ℕ → ℚ :=
  fun j => if j ∈ cols then -1 else s j

/-- `np.argmax` over indices `0..n-1`: first index attaining the maximum. -/
def argmaxQ (n : ℕ) (f : ℕ → ℚ) : ℕ :=
  (List.range n).foldl (fun b j => if f b < f j then j else b) 0

/-- The anchor matrix `x[:, cols]` used inside the selection loop. -/
def anchorsOf (x : Mat) (cols : List ℕ) : Mat :=
  fun i c => x i (cols.getD c 0)

/-- `H = nnls_frob(x, x[:, cols])` (line 108): project all `ncols` columns of
`x` onto the currently selected columns. -/
def xrayH (S : NNLSSolver) (m : ℕ) (x : Mat) (cols : List ℕ) (ncols : ℕ) : Mat :=
  nnls_frob S m (anchorsOf x cols) cols.length ncols x

/-- `R = x - x[:, cols].dot(H)` (line 109). -/
def residualOf (x : Mat) (cols : List ℕ) (H : Mat) : Mat :=
  fun i j => x i j - ∑ c in Finset.range cols.length, anchorsOf x cols i c * H c j

/-- One pass of the XRay selection loop (lines 95–113), fuel-recursive.
State: selected columns `cols` and residual `R`; parameters: pixel count `m`,
column count `n`, requested rank `r`, working matrix `x`, and the random
probe of each iteration (`probes t` models the fresh `da.random.random` draw
of the iteration picking column `t+1`).  The `assert best_col not in cols`
of line 104 becomes the error branch. -/
def xrayLoop (S : NNLSSolver) (m n r : ℕ) (x : Mat) (probes : ℕ → ℕ → ℚ) :
    List ℕ → Mat → ℕ → Except String (List ℕ × Mat)
  | cols, R, 0 => Except.ok (cols, R)
  | cols, R, fuel + 1 =>
    if r ≤ cols.length then Except.ok (cols, R)
    else
      let best := argmaxQ n (maskScores cols (scoreOf m R x (probes cols.length)))
      if best ∈ cols then Except.error "assertion failed: best_col not in cols"
      else
        xrayLoop S m n r x probes (cols ++ [best])
          (residualOf x (cols ++ [best]) (xrayH S m x (cols ++ [best]) n)) fuel

/-- The whole selection phase: start from `cols = []`, `R = x` (line 95);
fuel `r` is exact since every iteration appends one column. -/
def xrayRun (S : NNLSSolver) (m n r : ℕ) (x : Mat) (probes : ℕ → ℕ → ℚ) :
    Except String (List ℕ × Mat) :=
  xrayLoop S m n r x probes [] x r

/-- Whether a run aborted (a fatal `assert`/`sys.exit` path). -/
def isErr {ε α : Type} : Except ε α → Bool
  | Except.error _ => true
  | Except.ok _ => false

/-- Modelled from the spec: KKT complementary slackness of the exact NNLS
minimizer returned by `nnlsm_blockpivot` (`external/nnls.py`, not under
`src/`; §4.4 specifies the solver returns the non-negative minimizer of
`‖anchors·h − target_col‖₂`, whose residual is orthogonal to the
reconstruction: `(b − A·h)·(A·h) = λᵀh = 0`). -/
def ComplementarySlack (S : NNLSSolver) : Prop :=
  ∀ (m : ℕ) (A : Mat) (k : ℕ) (b : ℕ → ℚ),
    (∑ i in Finset.range m,
      (b i - ∑ c in Finset.range k, A i c * S m A k b c) *
        (∑ c in Finset.range k, A i c * S m A k b c)) = 0

/-- A concrete solver instance (used to instantiate witnesses and
counterexamples; it trivially satisfies `ComplementarySlack`). -/
def zeroSolver : NNLSSolver := fun _ _ _ _ _ => 0

/-- A concrete 1-pixel × 1-column dataset matrix. -/
def oneColMatrix : Mat := fun i j => if i = 0 ∧ j = 0 then 1 else 0

/-- A concrete 1-pixel × 2-column dataset matrix. -/
def twoColMatrix : Mat := fun i j => if i = 0 ∧ j < 2 then 1 else 0

/-- The all-zero probe sequence (a legal value of `da.random.random`). -/
def zeroProbes : ℕ → ℕ → ℚ := fun _ _ => 0

/-- A concrete two-bin dataset (bin 0 ↦ `[2]`, bin 1 ↦ `[1]`). -/
def rawPair : ℕ → List ℚ := fun b => if b = 0 then [2] else if b = 1 then [1] else []

/-- The constant-1 pixel function. -/
def oneFunQ : ℕ → ℚ := fun _ => 1

/-- The constant-0 pixel function. -/
def zeroFunQ : ℕ → ℚ := fun _ => 0

/-- A constant list statistic (stands in for `np.median`/`np.std` where their
value is irrelevant). -/
def zeroListF : List ℚ → ℚ := fun _ => 0

/-- The all-ones matrix. -/
def oneMat : Mat := fun _ _ => 1

/-- The strictly positive entries of `diff` over pixels `0..hw-1`
(`noise = diff[diff > 0]`, line 136). -/
def positiveDiffs (hw : ℕ) (diff : ℕ → ℚ) : List ℚ :=
  ((List.range hw).filter (fun p => decide (0 < diff p))).map diff

/-- `noise_prob = float(len(noise)) / (width * height)` (line 141), with
`hw = height * width`. -/
def noiseProbOf (hw : ℕ) (orig approx : ℕ → ℚ) : ℚ :=
  ((positiveDiffs hw (fun p => orig p - approx p)).length : ℚ) / (hw : ℚ)

/-- Per-bin noise statistics (lines 134–151): the probability is recorded
always; median and std of `sqrt(noise)` are recorded only when the
probability is positive, else both are 0.  The float operations `np.sqrt`,
`np.median`, `np.std` are irrational-valued and enter only the positive
branch, so they are taken as parameters. -/
def binNoiseStats (sqrtF : ℚ → ℚ) (medF stdF : List ℚ → ℚ) (hw : ℕ)
    (orig approx : ℕ → ℚ) : ℚ × ℚ × ℚ :=
  if 0 < noiseProbOf hw orig approx then
    (noiseProbOf hw orig approx,
      medF ((positiveDiffs hw (fun p => orig p - approx p)).map sqrtF),
      stdF ((positiveDiffs hw (fun p => orig p - approx p)).map sqrtF))
  else (noiseProbOf hw orig approx, 0, 0)

/-- `approx_img = W.dot(H_full[:, i])` (line 134): reconstruction of one bin
from `k` basis columns. -/
def reconstruct (W : Mat) (k : ℕ) (h : ℕ → ℚ) : ℕ → ℚ :=
  fun p => ∑ c in Finset.range k, W p c * h c

/-- One minimum-intensity update (lines 138–139):
`min_intensities[mask] = np.minimum(min_intensities[mask], orig_img[mask])`
with `mask = orig_img > 0`.  `none` models the `np.inf` initialization
(line 129); `np.minimum(inf, v) = v` is the `none ↦ some v` case. -/
def updateMinMap (cur : ℕ → Option ℚ) (img : ℕ → ℚ) : ℕ → Option ℚ :=
  fun p =>
    if 0 < img p then
      match cur p with
      | none => some (img p)
      | some v => some (min v (img p))
    else cur p

/-- The minimum-intensity map after folding all bins in axis order
(lines 128–139). -/
def minIntensityMap (origs : ℕ → ℕ → ℚ) (nbins : ℕ) : ℕ → Option ℚ :=
  (List.range nbins).foldl (fun acc b => updateMinMap acc (origs b)) (fun _ => none)

/-- Fatal termination paths of the script. -/
inductive RunError
  | rankTooSmall
  | assertFailed (msg : String)
  deriving DecidableEq

/-- The arrays written by `np.savez_compressed` (lines 157–162) that the
claims are about (`mz_axis` and `shape` are verbatim inputs). -/
structure Archive where
  W : Mat
  H : Mat
  noise_prob : List ℚ
  noise_sqrt_avg : List ℚ
  noise_sqrt_std : List ℚ
  min_intensities : ℕ → Option ℚ

/-- The body of the script after the rank gate (lines 29–162): select
columns on the bright-subset matrix, project the full dataset, aggregate
noise statistics, and assemble the output archive.  `bright` is the
bright-subset index list (line 66; its intensity ordering is irrelevant to
every claim), `hw = height * width`, `nbins` the axis length. -/
def buildArchive (S : NNLSSolver) (sqrtF : ℚ → ℚ) (medF stdF : List ℚ → ℚ)
    (raw : ℕ → List ℚ) (nbins hw : ℕ) (bright : List ℕ) (r : ℕ)
    (probes : ℕ → ℕ → ℚ) : Except RunError Archive :=
  let x : Mat := fun p j => imageMatrix raw p (bright.getD j 0)
  match xrayRun S hw bright.length r x probes with
  | Except.error e => Except.error (RunError.assertFailed e)
  | Except.ok (cols, _R) =>
    let W := Wof x cols
    let H := nnls_frob S hw W cols.length nbins (imageMatrix raw)
    let stats := fun i =>
      binNoiseStats sqrtF medF stdF hw (noisePassAt raw i)
        (reconstruct W cols.length (fun c => H c i))
    Except.ok
      { W := W
        H := H
        noise_prob := (List.range nbins).map (fun i => (stats i).1)
        noise_sqrt_avg := (List.range nbins).map (fun i => (stats i).2.1)
        noise_sqrt_std := (List.range nbins).map (fun i => (stats i).2.2)
        min_intensities := minIntensityMap (noisePassAt raw) nbins }

/-- The whole program (lines 24–162): the rank gate of lines 25–27 runs
first; `rank < 10` prints and exits with status 1 before any computation and
before any output exists, modelled as `Except.error RunError.rankTooSmall`.
Otherwise the body runs with `r = rank.toNat`. -/
def runNNMF (rank : ℤ) (S : NNLSSolver) (sqrtF : ℚ → ℚ) (medF stdF : List ℚ → ℚ)
    (raw : ℕ → List ℚ) (nbins hw : ℕ) (bright : List ℕ)
    (probes : ℕ → ℕ → ℚ) : Except RunError Archive :=
  if rank < 10 then Except.error RunError.rankTooSmall
  else buildArchive S sqrtF medF stdF raw nbins hw bright rank.toNat probes

/-! ### Helper lemmas -/

theorem getD_nonneg {l : List ℚ} {d : ℚ} (hl : ∀ v ∈ l, 0 ≤ v) (hd : 0 ≤ d) (k : ℕ) :
    0 ≤ l.getD k d := by
  induction l generalizing k with
  | nil => simpa [List.getD] using hd
  | cons a t ih =>
    cases k with
    | zero => simpa using hl a (by simp)
    | succ k =>
      simpa using ih (fun v hv => hl v (by simp [hv])) k

theorem getD_map_lt (f : ℚ → ℚ) (l : List ℚ) {p : ℕ} (hp : p < l.length) :
    (l.map f).getD p 0 = f (l.getD p 0) := by
  induction l generalizing p with
  | nil => simp at hp
  | cons a t ih =>
    cases p with
    | zero => simp
    | succ p => simpa using ih (by simpa using hp)

theorem map_eq_self_iff_q (f : ℚ → ℚ) (l : List ℚ) :
    l.map f = l ↔ ∀ a ∈ l, f a = a := by
  induction l with
  | nil => simp
  | cons a t ih => simp [ih]

theorem pFrac_nonneg (img : List ℚ) : 0 ≤ pFrac img := by
  unfold pFrac
  positivity

theorem pFrac_le_one (img : List ℚ) : pFrac img ≤ 1 := by
  unfold pFrac
  rw [div_le_one (by norm_num)]
  have hlt : (99 * (img.length - 1)) % 100 < 100 := Nat.mod_lt _ (by norm_num)
  exact_mod_cast le_of_lt hlt

theorem percentile99_nonneg {img : List ℚ} (h : ∀ v ∈ img, 0 ≤ v) :
    0 ≤ percentile99 img := by
  unfold percentile99
  have hmem : ∀ v ∈ sortedOf img, 0 ≤ v := by
    intro v hv
    exact h v ((List.perm_insertionSort (· ≤ ·) img).mem_iff.mp hv)
  have ha : 0 ≤ (sortedOf img).getD (pIdx img) 0 := getD_nonneg hmem le_rfl _
  have hb : 0 ≤ (sortedOf img).getD (pIdx img + 1) ((sortedOf img).getD (pIdx img) 0) :=
    getD_nonneg hmem ha _
  have hf0 : 0 ≤ pFrac img := pFrac_nonneg img
  have hf1 : pFrac img ≤ 1 := pFrac_le_one img
  set a := (sortedOf img).getD (pIdx img) 0
  set b := (sortedOf img).getD (pIdx img + 1) a
  have hring : a + pFrac img * (b - a) = (1 - pFrac img) * a + pFrac img * b := by ring
  rw [hring]
  have h1 : 0 ≤ (1 - pFrac img) * a := mul_nonneg (by linarith) ha
  have h2 : 0 ≤ pFrac img * b := mul_nonneg hf0 hb
  linarith

theorem clampNeg_nonneg (img : List ℚ) : ∀ v ∈ clampNeg img, 0 ≤ v := by
  intro v hv
  unfold clampNeg at hv
  obtain ⟨u, _, rfl⟩ := List.mem_map.mp hv
  split
  · exact le_rfl
  · exact le_of_not_lt (by assumption)

theorem cleanImage_nonneg (img : List ℚ) : ∀ v ∈ cleanImage img, 0 ≤ v := by
  intro v hv
  unfold cleanImage at hv
  obtain ⟨u, hu, rfl⟩ := List.mem_map.mp hv
  split
  · exact percentile99_nonneg (clampNeg_nonneg img)
  · exact clampNeg_nonneg img u hu

theorem imageMatrix_nonneg (raw : ℕ → List ℚ) (p j : ℕ) : 0 ≤ imageMatrix raw p j :=
  getD_nonneg (cleanImage_nonneg (raw j)) le_rfl p

/-- Positivity in the fully cleaned image forces positivity in the
noise-pass (negative-clamp only) image. -/
theorem clean_pos_imp_noisePass_pos (l : List ℚ) (p : ℕ)
    (h : 0 < (cleanImage l).getD p 0) : 0 < (noisePassImage l).getD p 0 := by
  unfold cleanImage at h
  unfold noisePassImage
  by_cases hp : p < (clampNeg l).length
  · rw [getD_map_lt _ _ hp] at h
    split at h
    · exact lt_trans h (by assumption)
    · exact h
  · rw [List.getD_eq_default] at h
    · exact absurd h (lt_irrefl 0)
    · simpa using le_of_not_lt hp

theorem partitionAllAux_join {k : ℕ} (hk : 0 < k) :
    ∀ (fuel : ℕ) (l : List ℕ), l.length ≤ fuel → (partitionAllAux k fuel l).flatten = l := by
  intro fuel
  induction fuel with
  | zero =>
    intro l hl
    have : l = [] := List.length_eq_zero.mp (Nat.le_zero.mp hl)
    subst this
    rfl
  | succ fuel ih =>
    intro l hl
    cases l with
    | nil => rfl
    | cons a t =>
      have hdrop : ((a :: t).drop k).length ≤ fuel := by
        rw [List.length_drop]
        have := hl
        simp only [List.length_cons] at this
        omega
      simp only [partitionAllAux, List.flatten]
      rw [ih _ hdrop, List.take_append_drop]

theorem partitionAll_join {k : ℕ} (hk : 0 < k) (l : List ℕ) :
    (partitionAll k l).flatten = l :=
  partitionAllAux_join hk l.length l le_rfl

theorem partitionAllAux_chunk_length {k : ℕ} :
    ∀ (fuel : ℕ) (l : List ℕ) (ch : List ℕ), ch ∈ partitionAllAux k fuel l → ch.length ≤ k := by
  intro fuel
  induction fuel with
  | zero => intro l ch h; simp [partitionAllAux] at h
  | succ fuel ih =>
    intro l ch h
    cases l with
    | nil => simp [partitionAllAux] at h
    | cons a t =>
      simp only [partitionAllAux, List.mem_cons] at h
      rcases h with h | h
      · subst h
        calc ((a :: t).take k).length = min k (a :: t).length := List.length_take _ _
          _ ≤ k := min_le_left _ _
      · exact ih _ _ h

theorem foldl_writeChunks (V acc0 : Mat) (C : List (List ℕ)) (ki j : ℕ) :
    (C.foldl (fun acc ch => fun ki j => if j ∈ ch then V ki j else acc ki j) acc0) ki j
      = if ∃ ch ∈ C, j ∈ ch then V ki j else acc0 ki j := by
  induction C generalizing acc0 with
  | nil => simp
  | cons ch C ih =>
    rw [List.foldl_cons, ih]
    by_cases h1 : ∃ ch' ∈ C, j ∈ ch'
    · simp only [if_pos h1]
      have : ∃ ch' ∈ ch :: C, j ∈ ch' := by
        obtain ⟨c, hc, hj⟩ := h1
        exact ⟨c, List.mem_cons_of_mem _ hc, hj⟩
      rw [if_pos this]
    · simp only [if_neg h1]
      by_cases h2 : j ∈ ch
      · have : ∃ ch' ∈ ch :: C, j ∈ ch' := ⟨ch, List.mem_cons_self _ _, h2⟩
        rw [if_pos h2, if_pos this]
      · have : ¬ ∃ ch' ∈ ch :: C, j ∈ ch' := by
          rintro ⟨c, hc, hj⟩
          rcases List.mem_cons.mp hc with rfl | hc
          · exact h2 hj
          · exact h1 ⟨c, hc, hj⟩
        rw [if_neg h2, if_neg this]

/-- Characterization of `nnls_frob`: inside the column range the result is
the per-column solve; the batching is invisible. -/
theorem nnls_frob_eq (S : NNLSSolver) (m : ℕ) (A : Mat) (k ncols : ℕ) (x : Mat)
    (ki j : ℕ) (hj : j < ncols) :
    nnls_frob S m A k ncols x ki j = S m A k (fun i => x i j) ki := by
  unfold nnls_frob
  rw [foldl_writeChunks]
  have hmem : ∃ ch ∈ partitionAll 100 (List.range ncols), j ∈ ch := by
    rw [← List.mem_flatten, partitionAll_join (k := 100) (by norm_num)]
    exact List.mem_range.mpr hj
  rw [if_pos hmem]

/-- Outside the column range the zero initialization survives. -/
theorem nnls_frob_eq_zero (S : NNLSSolver) (m : ℕ) (A : Mat) (k ncols : ℕ) (x : Mat)
    (ki j : ℕ) (hj : ncols ≤ j) :
    nnls_frob S m A k ncols x ki j = 0 := by
  unfold nnls_frob
  rw [foldl_writeChunks]
  have hmem : ¬ ∃ ch ∈ partitionAll 100 (List.range ncols), j ∈ ch := by
    rw [← List.mem_flatten, partitionAll_join (k := 100) (by norm_num)]
    simp
    omega
  rw [if_neg hmem]

theorem foldl_argmax_le (f : ℕ → ℚ) :
    ∀ (l : List ℕ) (b j : ℕ), (j = b ∨ j ∈ l) →
      f j ≤ f (l.foldl (fun b j => if f b < f j then j else b) b) := by
  intro l
  induction l with
  | nil =>
    intro b j hj
    rcases hj with rfl | hj
    · simp
    · simp at hj
  | cons a t ih =>
    intro b j hj
    rw [List.foldl_cons]
    set b' := if f b < f a then a else b with hb'
    have hba : f b ≤ f b' ∧ f a ≤ f b' := by
      rw [hb']
      by_cases h : f b < f a
      · rw [if_pos h]; exact ⟨le_of_lt h, le_rfl⟩
      · rw [if_neg h]; exact ⟨le_rfl, le_of_not_lt h⟩
    rcases hj with rfl | hj
    · exact le_trans hba.1 (ih b' b' (Or.inl rfl))
    · rcases List.mem_cons.mp hj with rfl | hj
      · exact le_trans hba.2 (ih b' b' (Or.inl rfl))
      · exact ih b' j (Or.inr hj)

theorem foldl_argmax_mem (f : ℕ → ℚ) :
    ∀ (l : List ℕ) (b : ℕ),
      l.foldl (fun b j => if f b < f j then j else b) b = b ∨
      l.foldl (fun b j => if f b < f j then j else b) b ∈ l := by
  intro l
  induction l with
  | nil => intro b; exact Or.inl rfl
  | cons a t ih =>
    intro b
    rw [List.foldl_cons]
    by_cases h : f b < f a
    · rw [if_pos h]
      rcases ih a with h' | h'
      · exact Or.inr (by rw [h']; exact List.mem_cons_self _ _)
      · exact Or.inr (List.mem_cons_of_mem _ h')
    · rw [if_neg h]
      rcases ih b with h' | h'
      · exact Or.inl h'
      · exact Or.inr (List.mem_cons_of_mem _ h')

theorem argmaxQ_lt (n : ℕ) (f : ℕ → ℚ) (hn : 0 < n) : argmaxQ n f < n := by
  unfold argmaxQ
  rcases foldl_argmax_mem f (List.range n) 0 with h | h
  · rw [h]; exact hn
  · exact List.mem_range.mp h

theorem argmaxQ_le (n : ℕ) (f : ℕ → ℚ) (j : ℕ) (hj : j < n) : f j ≤ f (argmaxQ n f) :=
  foldl_argmax_le f (List.range n) 0 j (Or.inr (List.mem_range.mpr hj))

/-! ### Minimum-intensity map -/

theorem minIntensityMap_succ (origs : ℕ → ℕ → ℚ) (n : ℕ) :
    minIntensityMap origs (n + 1) =
      updateMinMap (minIntensityMap origs n) (origs n) := by
  unfold minIntensityMap
  rw [List.range_succ, List.foldl_append, List.foldl_cons, List.foldl_nil]

theorem minIntensityMap_none (origs : ℕ → ℕ → ℚ) (nbins p : ℕ)
    (h : ∀ b, b < nbins → origs b p ≤ 0) :
    minIntensityMap origs nbins p = none := by
  induction nbins with
  | zero => rfl
  | succ n ih =>
    rw [minIntensityMap_succ]
    unfold updateMinMap
    rw [if_neg (not_lt.mpr (h n (Nat.lt_succ_self n)))]
    exact ih (fun b hb => h b (Nat.lt_succ_of_lt hb))

theorem minIntensityMap_some (origs : ℕ → ℕ → ℚ) (nbins p : ℕ)
    (h : ∃ b, b < nbins ∧ 0 < origs b p) :
    ∃ v, minIntensityMap origs nbins p = some v ∧
      (∃ b, b < nbins ∧ 0 < origs b p ∧ origs b p = v) ∧
      (∀ b, b < nbins → 0 < origs b p → v ≤ origs b p) := by
  induction nbins with
  | zero =>
    obtain ⟨b, hb, _⟩ := h
    exact absurd hb (Nat.not_lt_zero b)
  | succ n ih =>
    rw [minIntensityMap_succ]
    by_cases hn : 0 < origs n p
    · by_cases hprev : ∃ b, b < n ∧ 0 < origs b p
      · obtain ⟨v, hv, ⟨b0, hb0, hb0pos, hb0v⟩, hmin⟩ := ih hprev
        unfold updateMinMap
        rw [if_pos hn, hv]
        refine ⟨min v (origs n p), rfl, ?_, ?_⟩
        · rcases le_total v (origs n p) with hle | hle
          · exact ⟨b0, Nat.lt_succ_of_lt hb0, hb0pos, by rw [hb0v, min_eq_left hle]⟩
          · exact ⟨n, Nat.lt_succ_self n, hn, (min_eq_right hle).symm⟩
        · intro b hb hbpos
          rcases Nat.lt_succ_iff_lt_or_eq.mp hb with hb | rfl
          · exact le_trans (min_le_left _ _) (hmin b hb hbpos)
          · exact min_le_right _ _
      · have hnone : minIntensityMap origs n p = none := by
          apply minIntensityMap_none
          intro b hb
          by_contra hpos
          exact hprev ⟨b, hb, lt_of_not_le hpos⟩
        unfold updateMinMap
        rw [if_pos hn, hnone]
        refine ⟨origs n p, rfl, ⟨n, Nat.lt_succ_self n, hn, rfl⟩, ?_⟩
        intro b hb hbpos
        rcases Nat.lt_succ_iff_lt_or_eq.mp hb with hb | rfl
        · exact absurd ⟨b, hb, hbpos⟩ hprev
        · exact le_rfl
    · have hprev : ∃ b, b < n ∧ 0 < origs b p := by
        obtain ⟨b, hb, hbpos⟩ := h
        rcases Nat.lt_succ_iff_lt_or_eq.mp hb with hb | rfl
        · exact ⟨b, hb, hbpos⟩
        · exact absurd hbpos hn
      obtain ⟨v, hv, ⟨b0, hb0, hb0pos, hb0v⟩, hmin⟩ := ih hprev
      unfold updateMinMap
      rw [if_neg hn, hv]
      refine ⟨v, rfl, ⟨b0, Nat.lt_succ_of_lt hb0, hb0pos, hb0v⟩, ?_⟩
      intro b hb hbpos
      rcases Nat.lt_succ_iff_lt_or_eq.mp hb with hb | rfl
      · exact hmin b hb hbpos
      · exact absurd hbpos hn

/-! ### Noise statistics -/

theorem binNoiseStats_fst (sqrtF : ℚ → ℚ) (medF stdF : List ℚ → ℚ) (hw : ℕ)
    (orig approx : ℕ → ℚ) :
    (binNoiseStats sqrtF medF stdF hw orig approx).1 = noiseProbOf hw orig approx := by
  unfold binNoiseStats
  split <;> rfl

theorem noiseProbOf_nonneg (hw : ℕ) (orig approx : ℕ → ℚ) :
    0 ≤ noiseProbOf hw orig approx := by
  unfold noiseProbOf
  positivity

theorem noiseProbOf_le_one (hw : ℕ) (orig approx : ℕ → ℚ) (hhw : 0 < hw) :
    noiseProbOf hw orig approx ≤ 1 := by
  unfold noiseProbOf
  rw [div_le_one (by exact_mod_cast hhw)]
  have hlen : (positiveDiffs hw (fun p => orig p - approx p)).length ≤ hw := by
    unfold positiveDiffs
    rw [List.length_map]
    calc (List.filter _ (List.range hw)).length ≤ (List.range hw).length :=
          List.length_filter_le _ _
      _ = hw := List.length_range hw
  exact_mod_cast hlen

theorem noiseProbOf_eq_zero_iff (hw : ℕ) (orig approx : ℕ → ℚ) (hhw : 0 < hw) :
    noiseProbOf hw orig approx = 0 ↔ ∀ p, p < hw → orig p - approx p ≤ 0 := by
  unfold noiseProbOf positiveDiffs
  rw [div_eq_zero_iff]
  have hne : ((hw : ℚ)) ≠ 0 := by exact_mod_cast Nat.pos_iff_ne_zero.mp hhw
  constructor
  · intro h p hp
    rcases h with h | h
    · rw [Nat.cast_eq_zero, List.length_eq_zero, List.map_eq_nil_iff, List.filter_eq_nil_iff] at h
      have := h p (List.mem_range.mpr hp)
      simpa using this
    · exact absurd h hne
  · intro h
    left
    rw [Nat.cast_eq_zero, List.length_eq_zero, List.map_eq_nil_iff, List.filter_eq_nil_iff]
    intro p hp
    simpa using h p (List.mem_range.mp hp)

theorem reconstruct_nonneg (W : Mat) (k : ℕ) (h : ℕ → ℚ)
    (hW : ∀ p c, 0 ≤ W p c) (hh : ∀ c, 0 ≤ h c) (p : ℕ) :
    0 ≤ reconstruct W k h p :=
  Finset.sum_nonneg fun c _ => mul_nonneg (hW p c) (hh c)

/-! ### The XRay selection loop -/

/-- With the exact NNLS projection, the residual of every in-range column is
orthogonal to its reconstruction, so the score numerator
`(R * x).sum(axis=0)` is the squared norm of the residual column, hence
non-negative. -/
theorem residual_score_num_nonneg (S : NNLSSolver) (hS : ComplementarySlack S)
    (m n : ℕ) (x : Mat) (cols : List ℕ) (j : ℕ) (hj : j < n) :
    0 ≤ ∑ i in Finset.range m, residualOf x cols (xrayH S m x cols n) i j * x i j := by
  set A := anchorsOf x cols with hA
  set k := cols.length with hk
  have hH : ∀ c, xrayH S m x cols n c j = S m A k (fun i => x i j) c := by
    intro c
    unfold xrayH
    exact nnls_frob_eq S m A k n x c j hj
  have hres : ∀ i, residualOf x cols (xrayH S m x cols n) i j
      = x i j - ∑ c in Finset.range k, A i c * S m A k (fun i => x i j) c := by
    intro i
    unfold residualOf
    rw [← hA, ← hk]
    congr 1
    exact Finset.sum_congr rfl fun c _ => by rw [hH c]
  have hsplit :
      (∑ i in Finset.range m, residualOf x cols (xrayH S m x cols n) i j * x i j)
        = (∑ i in Finset.range m,
            (x i j - ∑ c in Finset.range k, A i c * S m A k (fun i => x i j) c) *
              (x i j - ∑ c in Finset.range k, A i c * S m A k (fun i => x i j) c))
          + ∑ i in Finset.range m,
              (x i j - ∑ c in Finset.range k, A i c * S m A k (fun i => x i j) c) *
                (∑ c in Finset.range k, A i c * S m A k (fun i => x i j) c) := by
    rw [← Finset.sum_add_distrib]
    refine Finset.sum_congr rfl fun i _ => ?_
    rw [hres i]
    ring
  rw [hsplit, hS m A k (fun i => x i j), add_zero]
  exact Finset.sum_nonneg fun i _ => mul_self_nonneg _

/-- A score of the form numerator / probe-projection is non-negative whenever
the numerator is and both the probe and the data are entrywise
non-negative. -/
theorem scoreOf_nonneg (m : ℕ) (R x : Mat) (p : ℕ → ℚ) (j : ℕ)
    (hnum : 0 ≤ ∑ i in Finset.range m, R i j * x i j)
    (hp : ∀ i, 0 ≤ p i) (hx : ∀ i j, 0 ≤ x i j) :
    0 ≤ scoreOf m R x p j := by
  unfold scoreOf
  exact div_nonneg hnum (Finset.sum_nonneg fun i _ => mul_nonneg (hp i) (hx i j))

/-- A duplicate-free list of naturals below `n` that is shorter than `n`
misses some index below `n`. -/
theorem exists_unselected (cols : List ℕ) (n : ℕ) (hnd : cols.Nodup)
    (_hsub : ∀ c ∈ cols, c < n) (hlen : cols.length < n) :
    ∃ j, j < n ∧ j ∉ cols := by
  by_contra hcon
  push_neg at hcon
  have hsubset : Finset.range n ⊆ cols.toFinset := by
    intro j hj
    exact List.mem_toFinset.mpr (hcon j (List.mem_range.mp hj))
  have hcard : n ≤ cols.toFinset.card := by
    simpa using Finset.card_le_card hsubset
  rw [List.toFinset_card_of_nodup hnd] at hcard
  omega

/-- The picked column is fresh whenever some unselected in-range column has
a score `> -1`-masked value at least 0, which the complementarity invariant
guarantees. -/
theorem xray_pick_fresh (n : ℕ) (cols : List ℕ) (s : ℕ → ℚ)
    (j0 : ℕ) (hj0n : j0 < n) (hj0 : j0 ∉ cols) (hs : 0 ≤ s j0) :
    argmaxQ n (maskScores cols s) ∉ cols := by
  intro hmem
  have h1 : maskScores cols s j0 ≤ maskScores cols s (argmaxQ n (maskScores cols s)) :=
    argmaxQ_le n _ j0 hj0n
  have h2 : maskScores cols s j0 = s j0 := if_neg hj0
  have h3 : maskScores cols s (argmaxQ n (maskScores cols s)) = -1 := if_pos hmem
  rw [h2, h3] at h1
  linarith

/-- Invariant-carrying run of the selection loop: with an exact solver,
non-negative data and probes, and `r ≤ n`, the loop consumes all its fuel,
never hits the duplicate-pick assertion, and returns `r` pairwise-distinct
in-range columns. -/
theorem xrayLoop_no_abort (S : NNLSSolver) (m n r : ℕ) (x : Mat)
    (probes : ℕ → ℕ → ℚ) (hS : ComplementarySlack S)
    (hx : ∀ i j, 0 ≤ x i j) (hp : ∀ t i, 0 ≤ probes t i) (hrn : r ≤ n) :
    ∀ (fuel : ℕ) (cols : List ℕ) (R : Mat), cols.length + fuel = r →
      cols.Nodup → (∀ c ∈ cols, c < n) →
      (∀ j, j < n → 0 ≤ ∑ i in Finset.range m, R i j * x i j) →
      ∃ cols' R', xrayLoop S m n r x probes cols R fuel = Except.ok (cols', R') ∧
        cols'.length = r ∧ cols'.Nodup ∧ ∀ c ∈ cols', c < n := by
  intro fuel
  induction fuel with
  | zero =>
    intro cols R hlen hnd hsub _
    exact ⟨cols, R, rfl, by omega, hnd, hsub⟩
  | succ fuel ih =>
    intro cols R hlen hnd hsub hnum
    have hlt : cols.length < r := by omega
    have hn : 0 < n := lt_of_le_of_lt (Nat.zero_le _) (lt_of_lt_of_le hlt hrn)
    obtain ⟨j0, hj0n, hj0⟩ :=
      exists_unselected cols n hnd hsub (lt_of_lt_of_le hlt hrn)
    have hscore : 0 ≤ scoreOf m R x (probes cols.length) j0 :=
      scoreOf_nonneg m R x (probes cols.length) j0 (hnum j0 hj0n) (hp cols.length) hx
    have hfresh : argmaxQ n (maskScores cols (scoreOf m R x (probes cols.length))) ∉ cols :=
      xray_pick_fresh n cols _ j0 hj0n hj0 hscore
    set best := argmaxQ n (maskScores cols (scoreOf m R x (probes cols.length))) with hbest
    have hbestn : best < n := argmaxQ_lt n _ hn
    have hstep : xrayLoop S m n r x probes cols R (fuel + 1)
        = xrayLoop S m n r x probes (cols ++ [best])
            (residualOf x (cols ++ [best]) (xrayH S m x (cols ++ [best]) n)) fuel := by
      rw [xrayLoop]
      rw [if_neg (by omega), if_neg hfresh]
    rw [hstep]
    have hnd' : (cols ++ [best]).Nodup := by
      rw [List.nodup_append]
      exact ⟨hnd, List.nodup_singleton best, by
        intro a ha hamem
        rcases List.mem_singleton.mp hamem with rfl
        exact hfresh ha⟩
    have hsub' : ∀ c ∈ cols ++ [best], c < n := by
      intro c hc
      rcases List.mem_append.mp hc with hc | hc
      · exact hsub c hc
      · rcases List.mem_singleton.mp hc with rfl
        exact hbestn
    have hnum' : ∀ j, j < n →
        0 ≤ ∑ i in Finset.range m,
          residualOf x (cols ++ [best]) (xrayH S m x (cols ++ [best]) n) i j * x i j :=
      fun j hj => residual_score_num_nonneg S hS m n x (cols ++ [best]) j hj
    exact ih (cols ++ [best]) _ (by simp; omega) hnd' hsub' hnum'

/-- Fuel exactness: the loop either aborts or returns exactly `r` columns
(each iteration appends exactly one, and there is no other early exit). -/
theorem xrayLoop_isErr_or_ok (S : NNLSSolver) (m n r : ℕ) (x : Mat)
    (probes : ℕ → ℕ → ℚ) :
    ∀ (fuel : ℕ) (cols : List ℕ) (R : Mat), cols.length + fuel = r →
      isErr (xrayLoop S m n r x probes cols R fuel) = true ∨
      ∃ cols' R', xrayLoop S m n r x probes cols R fuel = Except.ok (cols', R') ∧
        cols'.length = r := by
  intro fuel
  induction fuel with
  | zero =>
    intro cols R hlen
    exact Or.inr ⟨cols, R, rfl, by omega⟩
  | succ fuel ih =>
    intro cols R hlen
    rw [xrayLoop]
    rw [if_neg (by omega)]
    set best := argmaxQ n (maskScores cols (scoreOf m R x (probes cols.length)))
    by_cases hmem : best ∈ cols
    · rw [if_pos hmem]
      exact Or.inl rfl
    · rw [if_neg hmem]
      exact ih (cols ++ [best]) _ (by simp; omega)

/-- With positive data but fewer columns than the requested rank, the
duplicate-pick assertion always fires, whatever the solver and probes: the
selected list stays duplicate-free and inside `0..n-1`, so it can never
reach length `r`, and a full-fuel exit needs length `r`. -/
theorem xray_aborts_of_few_columns (S : NNLSSolver) (m n r : ℕ) (x : Mat)
    (probes : ℕ → ℕ → ℚ) (hn : 0 < n) (hnr : n < r) :
    isErr (xrayRun S m n r x probes) = true := by
  unfold xrayRun
  suffices h : ∀ (fuel : ℕ) (cols : List ℕ) (R : Mat), cols.length + fuel = r →
      cols.Nodup → (∀ c ∈ cols, c < n) →
      isErr (xrayLoop S m n r x probes cols R fuel) = true by
    exact h r [] x (by simp) List.nodup_nil (by simp)
  intro fuel
  induction fuel with
  | zero =>
    intro cols R hlen hnd hsub
    exfalso
    have hsubset : cols.toFinset ⊆ Finset.range n := by
      intro j hj
      exact Finset.mem_range.mpr (hsub j (List.mem_toFinset.mp hj))
    have hcard := Finset.card_le_card hsubset
    rw [List.toFinset_card_of_nodup hnd, Finset.card_range] at hcard
    omega
  | succ fuel ih =>
    intro cols R hlen hnd hsub
    rw [xrayLoop]
    rw [if_neg (by omega)]
    set best := argmaxQ n (maskScores cols (scoreOf m R x (probes cols.length)))
    by_cases hmem : best ∈ cols
    · rw [if_pos hmem]
      rfl
    · rw [if_neg hmem]
      have hbestn : best < n := argmaxQ_lt n _ hn
      refine ih (cols ++ [best]) _ (by simp; omega) ?_ ?_
      · rw [List.nodup_append]
        exact ⟨hnd, List.nodup_singleton best, by
          intro a ha hamem
          rcases List.mem_singleton.mp hamem with rfl
          exact hmem ha⟩
      · intro c hc
        rcases List.mem_append.mp hc with hc | hc
        · exact hsub c hc
        · rcases List.mem_singleton.mp hc with rfl
          exact hbestn

/-! ### Claims -/

/-- C1 (counterexample): on the image `[0, 0, 0, 100]` the noise-statistics
pass keeps the value 100 while the `get_mz_images` cleaning clamps it to the
99th percentile 97, so the noise pass does not clean "exactly as in
ImageSource's cleaning policy". -/
theorem noise_pass_cleaning_cex :
    (noisePassImage [0, 0, 0, 100]).getD 3 0 = 100 ∧
    (cleanImage [0, 0, 0, 100]).getD 3 0 = 97 ∧
    noisePassImage [0, 0, 0, 100] ≠ cleanImage [0, 0, 0, 100] := by
  have hclamp : clampNeg [0, 0, 0, 100] = [0, 0, 0, 100] := by norm_num [clampNeg]
  have hperc : percentile99 [0, 0, 0, 100] = 97 := by
    norm_num [percentile99, sortedOf, pIdx, pFrac,
      List.insertionSort, List.orderedInsert, List.getD_cons_zero, List.getD_cons_succ]
  refine ⟨?_, ?_, ?_⟩
  · norm_num [noisePassImage, hclamp, List.getD_cons_zero, List.getD_cons_succ]
  · norm_num [cleanImage, hclamp, hperc, List.getD_cons_zero, List.getD_cons_succ]
  · norm_num [cleanImage, noisePassImage, hclamp, hperc]

/-- C1 (amended): in the noise-statistics pass the fetched image is cleaned
only by clamping negative intensities to 0; the 99th-percentile clamp of the
ImageSource policy is not applied there.  Consequently the noise-pass image
dominates the fully cleaned image pointwise, and the two coincide exactly
when no negative-clamped intensity exceeds the image's 99th percentile. -/
theorem noise_pass_cleaning_amended (img : List ℚ) :
    (∀ k, (cleanImage img).getD k 0 ≤ (noisePassImage img).getD k 0) ∧
    (noisePassImage img = cleanImage img ↔
      ∀ v ∈ clampNeg img, v ≤ percentile99 (clampNeg img)) := by
  constructor
  · intro k
    unfold cleanImage noisePassImage
    by_cases hk : k < (clampNeg img).length
    · rw [getD_map_lt _ _ hk]
      split
      · exact le_of_lt (by assumption)
      · exact le_rfl
    · have h1 : ((clampNeg img).map
          (fun v => if percentile99 (clampNeg img) < v then percentile99 (clampNeg img)
            else v)).getD k 0 = 0 :=
        List.getD_eq_default _ _ (by rw [List.length_map]; exact le_of_not_lt hk)
      have h2 : (clampNeg img).getD k 0 = 0 :=
        List.getD_eq_default _ _ (le_of_not_lt hk)
      rw [h1, h2]
  · unfold cleanImage noisePassImage
    rw [eq_comm, map_eq_self_iff_q]
    constructor
    · intro hall v hv
      have hfix := hall v hv
      by_contra hnle
      have hlt : percentile99 (clampNeg img) < v := lt_of_not_le hnle
      rw [if_pos hlt] at hfix
      exact absurd hfix (ne_of_lt hlt)
    · intro hall v hv
      rw [if_neg (not_lt.mpr (hall v hv))]

/-- C2 (counterexample): the exclusion rule writes the finite value `-1`,
not `-∞` (a score of `-2` would lie below it), and the duplicate-pick
assertion is reachable: on a 1-pixel dataset with 2 columns and requested
rank 10 the run aborts with the duplicate-pick assertion instead of
returning 10 distinct columns. -/
theorem xray_duplicate_pick_cex :
    maskScores [0] (fun _ => -2) 0 = -1 ∧
    (-2 : ℚ) < maskScores [0] (fun _ => -2) 0 ∧
    isErr (xrayRun zeroSolver 1 2 10 twoColMatrix zeroProbes) = true := by
  refine ⟨rfl, by norm_num [maskScores], ?_⟩
  exact xray_aborts_of_few_columns zeroSolver 1 2 10 twoColMatrix zeroProbes
    (by norm_num) (by norm_num)

/-- C2 (amended): the selection loop forces the score of every selected
column to `-1` (not `-∞`).  Whenever the requested rank does not exceed the
number of columns, the solver is an exact NNLS minimizer (complementary
slackness), and data and probes are entrywise non-negative, every unselected
column scores at least 0, so the argmax never lands on a selected column,
the fatal duplicate-pick assertion is unreachable, and the final
SelectedColumns has length `rank` with pairwise-distinct in-range entries.
(When the rank exceeds the column count the assertion does fire; see the
counterexample.) -/
theorem xray_selected_columns_distinct (S : NNLSSolver) (m n r : ℕ) (x : Mat)
    (probes : ℕ → ℕ → ℚ) (hS : ComplementarySlack S)
    (hx : ∀ i j, 0 ≤ x i j) (hp : ∀ t i, 0 ≤ probes t i) (hrn : r ≤ n) :
    ∃ cols R, xrayRun S m n r x probes = Except.ok (cols, R) ∧
      cols.length = r ∧ cols.Nodup ∧ ∀ c ∈ cols, c < n := by
  unfold xrayRun
  apply xrayLoop_no_abort S m n r x probes hS hx hp hrn r [] x (by simp)
    List.nodup_nil (by simp)
  intro j _
  exact Finset.sum_nonneg fun i _ => mul_nonneg (hx i j) (hx i j)

/-- Witness for C2 (amended) at a concrete dataset: 1 pixel, 2 columns,
rank 2, zero probes, and the (complementary-slack) zero solver. -/
theorem xray_selected_columns_distinct_witness :
    ∃ cols R, xrayRun zeroSolver 1 2 2 twoColMatrix zeroProbes = Except.ok (cols, R) ∧
      cols.length = 2 ∧ cols.Nodup ∧ ∀ c ∈ cols, c < 2 := by
  apply xray_selected_columns_distinct zeroSolver 1 2 2 twoColMatrix zeroProbes
  · intro m A k b
    simp [zeroSolver]
  · intro i j
    unfold twoColMatrix
    split <;> norm_num
  · intro t i
    exact le_refl 0
  · exact le_refl 2

/-- C3: a rank below 10 is rejected before any computation, the process
exits with status 1 (modelled by `RunError.rankTooSmall`) and no archive is
produced; any rank ≥ 10 passes the gate and the body runs unchanged. -/
theorem rank_gate (rank : ℤ) (S : NNLSSolver) (sqrtF : ℚ → ℚ)
    (medF stdF : List ℚ → ℚ) (raw : ℕ → List ℚ) (nbins hw : ℕ)
    (bright : List ℕ) (probes : ℕ → ℕ → ℚ) :
    (rank < 10 → runNNMF rank S sqrtF medF stdF raw nbins hw bright probes =
        Except.error RunError.rankTooSmall) ∧
    (10 ≤ rank → runNNMF rank S sqrtF medF stdF raw nbins hw bright probes =
        buildArchive S sqrtF medF stdF raw nbins hw bright rank.toNat probes) := by
  constructor
  · intro h
    unfold runNNMF
    rw [if_pos h]
  · intro h
    unfold runNNMF
    rw [if_neg (not_lt.mpr h)]

/-- Witness for C3 at ranks 5 and 40. -/
theorem rank_gate_witness :
    runNNMF 5 zeroSolver id zeroListF zeroListF rawPair 1 1 [0] zeroProbes =
      Except.error RunError.rankTooSmall ∧
    runNNMF 40 zeroSolver id zeroListF zeroListF rawPair 1 1 [0] zeroProbes =
      buildArchive zeroSolver id zeroListF zeroListF rawPair 1 1 [0] 40 zeroProbes := by
  constructor
  · exact (rank_gate 5 zeroSolver id zeroListF zeroListF rawPair 1 1 [0] zeroProbes).1
      (by norm_num)
  · have h := (rank_gate 40 zeroSolver id zeroListF zeroListF rawPair 1 1 [0] zeroProbes).2
      (by norm_num)
    simpa using h

/-- C4: every entry of the basis `W` (columns of the cleaned-image matrix)
is non-negative, and — given the spec-modelled non-negativity of the NNLS
solver — so is every entry of any `nnls_frob` result, in particular of the
serialized coefficient matrix `H`. -/
theorem W_H_entries_nonneg :
    (∀ (raw : ℕ → List ℚ) (cols : List ℕ) (p c : ℕ),
      0 ≤ Wof (imageMatrix raw) cols p c) ∧
    (∀ S : NNLSSolver, (∀ m A k b ki, 0 ≤ S m A k b ki) →
      ∀ (m : ℕ) (A : Mat) (k ncols : ℕ) (x : Mat) (ki j : ℕ),
        0 ≤ nnls_frob S m A k ncols x ki j) := by
  constructor
  · intro raw cols p c
    exact imageMatrix_nonneg raw p _
  · intro S hSn m A k ncols x ki j
    by_cases hj : j < ncols
    · rw [nnls_frob_eq S m A k ncols x ki j hj]
      exact hSn m A k _ ki
    · rw [nnls_frob_eq_zero S m A k ncols x ki j (le_of_not_lt hj)]

/-- Witness for C4 at a concrete image stack and the zero solver. -/
theorem W_H_entries_nonneg_witness :
    0 ≤ Wof (imageMatrix rawPair) [0] 0 0 ∧
    0 ≤ nnls_frob zeroSolver 1 oneMat 1 1 oneMat 0 0 :=
  ⟨W_H_entries_nonneg.1 rawPair [0] 0 0,
   W_H_entries_nonneg.2 zeroSolver (fun _ _ _ _ _ => le_refl 0) 1 oneMat 1 1 oneMat 0 0⟩

/-- C5: the MinIntensityMap starts at +∞ (`none`), a bin updates a pixel
only when its noise-pass original image is positive there (taking the
pointwise minimum), and after the pass the map is finite at every pixel that
is positive in at least one bin's cleaned image, where it equals the least
positive per-bin value of that pixel. -/
theorem minIntensityMap_correct (raw : ℕ → List ℚ) (nbins p : ℕ)
    (hpos : ∃ b, b < nbins ∧ 0 < (cleanImage (raw b)).getD p 0) :
    minIntensityMap (noisePassAt raw) 0 p = none ∧
    (∀ (cur : ℕ → Option ℚ) (img : ℕ → ℚ), ¬ 0 < img p →
      updateMinMap cur img p = cur p) ∧
    ∃ v, minIntensityMap (noisePassAt raw) nbins p = some v ∧
      (∃ b, b < nbins ∧ 0 < noisePassAt raw b p ∧ noisePassAt raw b p = v) ∧
      (∀ b, b < nbins → 0 < noisePassAt raw b p → v ≤ noisePassAt raw b p) := by
  refine ⟨rfl, ?_, ?_⟩
  · intro cur img h
    unfold updateMinMap
    rw [if_neg h]
  · apply minIntensityMap_some
    obtain ⟨b, hb, hbpos⟩ := hpos
    exact ⟨b, hb, clean_pos_imp_noisePass_pos (raw b) p hbpos⟩

/-- Witness for C5 on the two-bin dataset `[2]`, `[1]` at pixel 0. -/
theorem minIntensityMap_correct_witness :
    minIntensityMap (noisePassAt rawPair) 0 0 = none ∧
    (∀ (cur : ℕ → Option ℚ) (img : ℕ → ℚ), ¬ 0 < img 0 →
      updateMinMap cur img 0 = cur 0) ∧
    ∃ v, minIntensityMap (noisePassAt rawPair) 2 0 = some v ∧
      (∃ b, b < 2 ∧ 0 < noisePassAt rawPair b 0 ∧ noisePassAt rawPair b 0 = v) ∧
      (∀ b, b < 2 → 0 < noisePassAt rawPair b 0 → v ≤ noisePassAt rawPair b 0) :=
  minIntensityMap_correct rawPair 2 0 ⟨0, by norm_num, by
    show 0 < (cleanImage (rawPair 0)).getD 0 0
    have hraw : rawPair 0 = [2] := rfl
    have hclamp : clampNeg [2] = [2] := by norm_num [clampNeg]
    have hperc : percentile99 [2] = 2 := by
      norm_num [percentile99, sortedOf, pIdx, pFrac,
        List.insertionSort, List.orderedInsert, List.getD_cons_zero, List.getD_cons_succ]
    rw [hraw]
    norm_num [cleanImage, hclamp, hperc, List.getD_cons_zero]⟩

/-- C6: the recorded noise probability is the number of strictly positive
entries of `orig − approx` divided by `hw = height · width`; it lies in
`[0, 1]` and vanishes exactly when the approximation dominates the original
at every pixel. -/
theorem noise_prob_correct (sqrtF : ℚ → ℚ) (medF stdF : List ℚ → ℚ) (hw : ℕ)
    (orig approx : ℕ → ℚ) (hhw : 0 < hw) :
    (binNoiseStats sqrtF medF stdF hw orig approx).1 =
      ((positiveDiffs hw (fun p => orig p - approx p)).length : ℚ) / (hw : ℚ) ∧
    0 ≤ (binNoiseStats sqrtF medF stdF hw orig approx).1 ∧
    (binNoiseStats sqrtF medF stdF hw orig approx).1 ≤ 1 ∧
    ((binNoiseStats sqrtF medF stdF hw orig approx).1 = 0 ↔
      ∀ p, p < hw → orig p - approx p ≤ 0) := by
  rw [binNoiseStats_fst]
  exact ⟨rfl, noiseProbOf_nonneg hw orig approx,
    noiseProbOf_le_one hw orig approx hhw,
    noiseProbOf_eq_zero_iff hw orig approx hhw⟩

/-- Witness for C6 on a 1-pixel bin with original 1 and approximation 0. -/
theorem noise_prob_correct_witness :
    (binNoiseStats id zeroListF zeroListF 1 oneFunQ zeroFunQ).1 =
      ((positiveDiffs 1 (fun p => oneFunQ p - zeroFunQ p)).length : ℚ) / ((1 : ℕ) : ℚ) ∧
    0 ≤ (binNoiseStats id zeroListF zeroListF 1 oneFunQ zeroFunQ).1 ∧
    (binNoiseStats id zeroListF zeroListF 1 oneFunQ zeroFunQ).1 ≤ 1 ∧
    ((binNoiseStats id zeroListF zeroListF 1 oneFunQ zeroFunQ).1 = 0 ↔
      ∀ p, p < 1 → oneFunQ p - zeroFunQ p ≤ 0) :=
  noise_prob_correct id zeroListF zeroListF 1 oneFunQ zeroFunQ (by norm_num)

/-- C7: for a bin whose cleaned original image is entirely zero, the
reconstruction `W·h` from a non-negative basis and non-negative coefficients
leaves no strictly positive residual, so the recorded noise probability,
sqrt-median, and sqrt-std are all 0. -/
theorem zero_bin_stats (sqrtF : ℚ → ℚ) (medF stdF : List ℚ → ℚ) (hw k : ℕ)
    (W : Mat) (h : ℕ → ℚ) (orig : ℕ → ℚ)
    (hW : ∀ p c, 0 ≤ W p c) (hh : ∀ c, 0 ≤ h c) (horig : ∀ p, orig p = 0) :
    binNoiseStats sqrtF medF stdF hw orig (reconstruct W k h) = (0, 0, 0) := by
  have hdiff : ∀ p, orig p - reconstruct W k h p ≤ 0 := by
    intro p
    rw [horig p, zero_sub, neg_nonpos]
    exact reconstruct_nonneg W k h hW hh p
  have hlist : positiveDiffs hw (fun p => orig p - reconstruct W k h p) = [] := by
    unfold positiveDiffs
    rw [List.map_eq_nil_iff, List.filter_eq_nil_iff]
    intro p _
    simp only [decide_eq_true_eq]
    exact not_lt.mpr (hdiff p)
  have hprob : noiseProbOf hw orig (reconstruct W k h) = 0 := by
    unfold noiseProbOf
    rw [hlist]
    simp
  unfold binNoiseStats
  rw [hprob, if_neg (lt_irrefl (0 : ℚ))]

/-- Witness for C7 on a 1-pixel all-zero bin with all-ones basis and
coefficients. -/
theorem zero_bin_stats_witness :
    binNoiseStats id zeroListF zeroListF 1 zeroFunQ (reconstruct oneMat 1 oneFunQ) =
      (0, 0, 0) :=
  zero_bin_stats id zeroListF zeroListF 1 1 oneMat oneFunQ zeroFunQ
    (fun _ _ => zero_le_one) (fun _ => zero_le_one) (fun _ => rfl)

/-- C8: the batched NNLS projection (chunks of at most 100 target columns,
each batch written into its slice) agrees entry-for-entry with the
single-call projection, because each target column's solution depends only
on the anchors and that column. -/
theorem nnls_frob_batched_eq_single (S : NNLSSolver) (m : ℕ) (A : Mat)
    (k ncols : ℕ) (x : Mat) (ki j : ℕ) (hj : j < ncols) :
    nnls_frob S m A k ncols x ki j = nnlsSingleCall S m A k x ki j ∧
    ∀ ch ∈ partitionAll 100 (List.range ncols), ch.length ≤ 100 := by
  constructor
  · rw [nnls_frob_eq S m A k ncols x ki j hj]
    rfl
  · intro ch hch
    exact partitionAllAux_chunk_length _ _ ch hch

/-- Witness for C8 at a 3-column target. -/
theorem nnls_frob_batched_eq_single_witness :
    nnls_frob zeroSolver 1 oneMat 1 3 oneMat 0 2 =
      nnlsSingleCall zeroSolver 1 oneMat 1 oneMat 0 2 ∧
    ∀ ch ∈ partitionAll 100 (List.range 3), ch.length ≤ 100 :=
  nnls_frob_batched_eq_single zeroSolver 1 oneMat 1 3 oneMat 0 2 (by norm_num)

/-- C9 (counterexample): on a 1-pixel dataset with a single column and
requested rank 10, the selection loop does not terminate after 10 iterations
with 10 selected columns — it aborts via the duplicate-pick assertion at the
second iteration (after all columns are exhausted), whatever the solver
returns. -/
theorem xray_early_abort_cex :
    isErr (xrayRun zeroSolver 1 1 10 oneColMatrix zeroProbes) = true :=
  xray_aborts_of_few_columns zeroSolver 1 1 10 oneColMatrix zeroProbes
    (by norm_num) (by norm_num)

/-- C9 (amended): the selection loop has no convergence-based early exit:
each iteration appends exactly one column, and every run either aborts with
the fatal duplicate-pick assertion or terminates after exactly `r`
iterations with SelectedColumns of length exactly `r` and a final residual.
(The abort does occur when the dataset has fewer columns than `r`; see the
counterexample.) -/
theorem xray_exact_iterations (S : NNLSSolver) (m n r : ℕ) (x : Mat)
    (probes : ℕ → ℕ → ℚ) :
    isErr (xrayRun S m n r x probes) = true ∨
    ∃ cols R, xrayRun S m n r x probes = Except.ok (cols, R) ∧ cols.length = r := by
  unfold xrayRun
  exact xrayLoop_isErr_or_ok S m n r x probes r [] x (by simp)

/-- C10: at a pixel where no bin's noise-pass original image is positive,
nothing in the aggregation pass ever replaces the `+∞` initialization, so
the serialized `min_intensities` array still holds `+∞` (`none`) there. -/
theorem min_intensities_keeps_infinity (raw : ℕ → List ℚ) (nbins p : ℕ)
    (hdark : ∀ b, b < nbins → noisePassAt raw b p ≤ 0) :
    minIntensityMap (noisePassAt raw) nbins p = none :=
  minIntensityMap_none (noisePassAt raw) nbins p hdark

/-- Witness for C10 on a single all-zero bin. -/
theorem min_intensities_keeps_infinity_witness :
    minIntensityMap (noisePassAt (fun _ => [0])) 1 0 = none :=
  min_intensities_keeps_infinity (fun _ => [0]) 1 0 (by
    intro b _
    show (noisePassImage [0]).getD 0 0 ≤ 0
    decide)

end NNMF
